import Mathlib

/-!
Verification of the feed-to-webhook notifier (`rss_to_discord.py`).

The script is embedded shallowly:

* Python strings are modelled as `List Char` (Python `len` and slicing count
  Unicode code points, exactly as `List.length` / `List.take` do here).
* Python floats (feed timestamps, the stored watermark) are modelled as `ℚ`:
  every finite IEEE double is a rational, and the script only ever copies and
  compares these values, never does arithmetic on them.
* `feedparser` entries are records of optional fields (`RawEntry`); a parsed
  time structure is modelled by the outcome `time.mktime` would produce on it.
* The I/O performed by `run` (the webhook POST, the watermark file write, the
  log line) is modelled by recording the calls in a `RunResult`; the outcome of
  the single `requests.post` call is an input `deliveryOk` of the model.
* `list.sort(key=..., reverse=True)` is a stable descending sort; a stable sort
  by a total key is unique as a function, so it is embedded as a stable
  insertion sort (`sortByTsDesc`), which the kernel can evaluate.
-/

namespace RssToDiscord

/-- Python strings, as lists of Unicode characters. -/
abbrev Str := List Char

/-- A `time.struct_time` value sitting in a `*_parsed` attribute of a feed
entry, modelled by its only observable use in the script: `time.mktime`
either returns an epoch value or raises (`mktime? = none`). A present
struct_time is always truthy in Python, so presence is modelled separately
(`Option TimeStruct` in `RawEntry`). -/
structure TimeStruct where
  mktime? : Option ℚ
deriving DecidableEq

/-- A raw feedparser entry: the optional attributes the script reads with
`getattr`. A missing attribute is `none`. -/
structure RawEntry where
  id : Option Str
  guid : Option Str
  link : Option Str
  title : Option Str
  published : Option Str
  updated : Option Str
  published_parsed : Option TimeStruct
  updated_parsed : Option TimeStruct
  created_parsed : Option TimeStruct
  summary : Option Str
  description : Option Str
deriving DecidableEq

/-- The loop body of `entry_key`: scan attribute values in order, return the
first truthy one (present and non-empty string). -/
def firstTruthy : List (Option Str) → Option Str
  | [] => none
  | v :: rest =>
    match v with
    | some s => if s ≠ [] then some s else firstTruthy rest
    | none => firstTruthy rest

/-- `entry_key(e)`: first truthy of `id`, `guid`, `link`; otherwise the
composite `f"{title}_{published}_{updated}"` built from `getattr(e, k, "")`. -/
def entry_key (e : RawEntry) : Str :=
  match firstTruthy [e.id, e.guid, e.link] with
  | some v => v
  | none =>
      (e.title.getD []) ++ "_".toList ++ (e.published.getD []) ++ "_".toList
        ++ (e.updated.getD [])

/-- The loop of `ts_of`: for each candidate attribute in order, if present
(truthy) try `time.mktime`; on success return the value, on exception fall
through to the next candidate; if the loop ends, return `0.0`. -/
def tsLoop : List (Option TimeStruct) → ℚ
  | [] => 0
  | v :: rest =>
    match v with
    | some s =>
      match s.mktime? with
      | some t => t
      | none => tsLoop rest
    | none => tsLoop rest

/-- `ts_of(e)`: best-effort timestamp, trying `published_parsed`, then
`updated_parsed`, then `created_parsed`; else `0.0`. Never raises. -/
def ts_of (e : RawEntry) : ℚ :=
  tsLoop [e.published_parsed, e.updated_parsed, e.created_parsed]

/-- The item dictionary built inside `run`'s gathering loop. -/
structure Item where
  ts : ℚ
  key : Str
  title : Str
  link : Str
  desc : Str
  feed : Str
deriving DecidableEq

/-- One iteration of the gathering loop in `run`: the dictionary appended to
`items` for entry `e` of the feed at `url`. -/
def normalize (e : RawEntry) (url : Str) : Item :=
  { ts := ts_of e
    key := entry_key e
    title := e.title.getD "(no title)".toList
    link := e.link.getD url
    desc :=
      let s := e.summary.getD []
      if s ≠ [] then s else e.description.getD []
    feed := url }

/-- The full gathering loop of `run`: every entry of every feed, in feed
order, normalized against its source feed URL. An unreachable or malformed
feed contributes an empty entry list. -/
def gather (feeds : List (Str × List RawEntry)) : List Item :=
  feeds.flatMap fun f => f.2.map fun e => normalize e f.1

/-! ### Watermark store -/

/-- JSON values as returned by `json.loads`. Numbers carry their rational
value (JSON numbers are decimal literals). -/
inductive Json where
  | null : Json
  | bool : Bool → Json
  | num : ℚ → Json
  | str : Str → Json
  | arr : List Json → Json
  | obj : List (Str × Json) → Json

/-- The state of the durable watermark record as `load_watermark` sees it:
the file is missing, or its text fails `json.loads`, or it parses to a JSON
value. -/
inductive StoredRecord where
  | missing : StoredRecord
  | unparseable : StoredRecord
  | parsed : Json → StoredRecord

/-- Numeric value of a digit string (base 10). -/
def digitsToNat (l : Str) : Nat :=
  l.foldl (fun a c => 10 * a + (c.toNat - 48)) 0

/-- Python `float()` on an unsigned string: digits with an optional single
fractional point, at least one digit overall, nothing else. (The exotic
accepted forms — exponents, `inf`, `nan`, surrounding whitespace,
underscores — are not modelled; no claim depends on them.) -/
def pyFloatCore (l : Str) : Option ℚ :=
  let intPart := l.takeWhile Char.isDigit
  let rest := l.dropWhile Char.isDigit
  match rest with
  | [] => if intPart ≠ [] then some (digitsToNat intPart : ℚ) else none
  | c :: rest₂ =>
    if c = '.' then
      let frac := rest₂.takeWhile Char.isDigit
      let rest₃ := rest₂.dropWhile Char.isDigit
      if rest₃ = [] ∧ (intPart ≠ [] ∨ frac ≠ []) then
        some ((digitsToNat intPart : ℚ)
          + (digitsToNat frac : ℚ) / (10 : ℚ) ^ frac.length)
      else none
    else none

/-- Python `float()` on a string: optional sign, then `pyFloatCore`. -/
def pyFloatOfStr : Str → Option ℚ
  | '-' :: rest => (pyFloatCore rest).map Neg.neg
  | '+' :: rest => pyFloatCore rest
  | s => pyFloatCore s

/-- Python `float(x)` on a JSON value: numbers pass through, `True`/`False`
become `1.0`/`0.0`, strings succeed exactly when they parse as float
literals, everything else raises (`none`). -/
def pyFloat : Json → Option ℚ
  | .num x => some x
  | .bool b => some (if b then 1 else 0)
  | .str s => pyFloatOfStr s
  | _ => none

/-- `load_watermark()`: `None` if the file does not exist; otherwise
`float(json.loads(text).get("last_ts", 0.0))` with every exception mapped to
`None`. A parsed non-object has no `.get`, so it raises; an object without
the `"last_ts"` key yields the default `0.0`; a present value goes through
`float`, whose failure is also caught. Total — it never raises. -/
def load_watermark : StoredRecord → Option ℚ
  | .missing => none
  | .unparseable => none
  | .parsed (.obj fields) =>
    match fields.find? (fun kv => kv.1 = "last_ts".toList) with
    | none => some 0
    | some kv => pyFloat kv.2
  | .parsed _ => none

/-- `save_watermark(ts)`: the durable record after the write,
`json.dumps({"last_ts": ts})` parsed back. -/
def save_watermark (ts_val : ℚ) : StoredRecord :=
  .parsed (.obj [("last_ts".toList, .num ts_val)])

/-! ### Notifier -/

/-- `truncate(s, limit)`: `s` itself when `len(s) <= limit`, otherwise
`s[:limit-1] + "…"`. The slice bound is a Python `int`: a negative
`limit - 1` counts from the end, so the slice is modelled exactly. -/
def truncate (s : Str) (limit : Int) : Str :=
  if (s.length : Int) ≤ limit then s
  else
    (if 0 ≤ limit - 1 then s.take (limit - 1).toNat
     else s.take ((s.length : Int) + (limit - 1)).toNat) ++ "…".toList

/-- The `content` string built by `post_to_discord`: bolded truncated title,
newline, link, and — only when `desc` is truthy (non-empty) — a newline and
the truncated description. -/
def compose (title link desc : Str) : Str :=
  let content := "**".toList ++ truncate title 1800 ++ "**".toList
      ++ "\n".toList ++ link
  if desc ≠ [] then content ++ "\n".toList ++ truncate desc 1800 else content

/-! ### The run -/

/-- The spec's decision outcome of one run. -/
inductive Decision where
  | PostItem : Item → Decision
  | SeedOnly : ℚ → Decision
  | NoAction : Decision
deriving DecidableEq

/-- Which log line the run prints (the script prints exactly one per run,
except that `raise SystemExit` carries its message instead). -/
inductive LogLine where
  | fatalNoFeeds : LogLine
  | noItems : LogLine
  | sentFirstRun : LogLine
  | errorFirstRun : LogLine
  | seeded : LogLine
  | nothingToDo : LogLine
  | sent : LogLine
  | error : LogLine
deriving DecidableEq

/-- Observable outcome of one invocation of `run`:
* `fatal`: the run raised `SystemExit` (no feeds configured);
* `decision`: the selection outcome, in the spec's vocabulary;
* `attempted`: the item passed to `post_to_discord`, when it was called;
* `saved`: the value passed to `save_watermark`, when it was called
  (when `none`, the durable watermark keeps its previous value);
* `log`: the log line printed. -/
structure RunResult where
  fatal : Bool
  decision : Decision
  attempted : Option Item
  saved : Option ℚ
  log : LogLine
deriving DecidableEq

/-- Stable descending insertion by timestamp: `x` is placed before the first
element with a strictly smaller timestamp, hence after every earlier element
with an equal one. -/
def insertByTsDesc (x : Item) : List Item → List Item
  | [] => [x]
  | y :: ys => if y.ts < x.ts then x :: y :: ys else y :: insertByTsDesc x ys

/-- `items.sort(key=lambda x: x["ts"], reverse=True)`: Python's sort is
stable, and a stable sort by a total key is a unique function of the input,
so the insertion sort computes exactly it. -/
def sortByTsDesc (items : List Item) : List Item :=
  items.foldl (fun acc x => insertByTsDesc x acc) []

/-- `max(c :: cs, key=lambda x: x["ts"])`: Python's `max` keeps the first
element seen and replaces it only on a strictly greater key. -/
def maxByTs (c : Item) (cs : List Item) : Item :=
  cs.foldl (fun best it => if best.ts < it.ts then it else best) c

/-- The body of `run` after the gathering loop, on the merged item list:
sort descending, take the head as `newest`, branch on the loaded watermark
and the first-run policy, and record every external effect. `deliveryOk` is
the outcome of the single `requests.post` call (including
`raise_for_status`), when one is made; exceptions from it are caught, so no
branch is fatal here. -/
def runItems (items : List Item) (wm : Option ℚ) (policy deliveryOk : Bool) :
    RunResult :=
  match sortByTsDesc items with
  | [] => ⟨false, .NoAction, none, none, .noItems⟩
  | newest :: rest =>
    match wm with
    | none =>
      if policy then
        if deliveryOk then
          ⟨false, .PostItem newest, some newest, some newest.ts, .sentFirstRun⟩
        else
          ⟨false, .PostItem newest, some newest, none, .errorFirstRun⟩
      else
        ⟨false, .SeedOnly newest.ts, none, some newest.ts, .seeded⟩
    | some last_ts =>
      match (newest :: rest).filter (fun it => last_ts < it.ts) with
      | [] => ⟨false, .NoAction, none, none, .nothingToDo⟩
      | c :: cs =>
        let pick := maxByTs c cs
        if deliveryOk then
          ⟨false, .PostItem pick, some pick, some pick.ts, .sent⟩
        else
          ⟨false, .PostItem pick, some pick, none, .error⟩

/-- `run()`: `SystemExit` when the feed list is empty, otherwise gather all
items across all feeds and proceed on the merged list. -/
def run (feeds : List (Str × List RawEntry)) (wm : Option ℚ)
    (policy deliveryOk : Bool) : RunResult :=
  if feeds.isEmpty then ⟨true, .NoAction, none, none, .fatalNoFeeds⟩
  else runItems (gather feeds) wm policy deliveryOk

/-- The epoch value one candidate attribute contributes inside `ts_of`'s
loop: `none` when the attribute is absent or `time.mktime` raises on it. -/
def tsVal : Option TimeStruct → Option ℚ
  | none => none
  | some v => v.mktime?

/-- Sample entry carrying only a convertible `published_parsed` time of
epoch 100; used by the witnesses. -/
def sampleEntry100 : RawEntry :=
  ⟨none, none, none, none, none, none, some ⟨some 100⟩, none, none, none, none⟩

/-- Sample entry like `sampleEntry100` with epoch 200. -/
def sampleEntry200 : RawEntry :=
  ⟨none, none, none, none, none, none, some ⟨some 200⟩, none, none, none, none⟩

/-- A single feed with the epoch-100 entry. -/
def sampleFeeds : List (Str × List RawEntry) :=
  [("f".toList, [sampleEntry100])]

/-- Two feeds, one entry each (epochs 100 and 200), for the merge
witnesses. -/
def sampleFeeds2 : List (Str × List RawEntry) :=
  [("a".toList, [sampleEntry100]), ("b".toList, [sampleEntry200])]

/-- The item `run` builds from `sampleEntry100` in `sampleFeeds`. -/
def sampleItem100 : Item := normalize sampleEntry100 "f".toList

/-! ### Facts about the stable sort and the chosen maximum -/

theorem insertByTsDesc_perm (x : Item) (l : List Item) :
    List.Perm (insertByTsDesc x l) (x :: l) := by
  induction l with
  | nil => simp [insertByTsDesc]
  | cons y ys ih =>
    rw [insertByTsDesc]
    by_cases h : y.ts < x.ts
    · simp [h]
    · rw [if_neg h]
      exact (ih.cons y).trans (List.Perm.swap x y ys)

theorem sortAux_perm (l : List Item) :
    ∀ acc : List Item,
      List.Perm (l.foldl (fun acc x => insertByTsDesc x acc) acc) (l ++ acc) := by
  induction l with
  | nil => intro acc; simp
  | cons x xs ih =>
    intro acc
    simp only [List.foldl_cons]
    refine (ih _).trans ?_
    refine (List.Perm.append_left xs (insertByTsDesc_perm x acc)).trans ?_
    exact List.perm_middle

theorem sortByTsDesc_perm (items : List Item) :
    List.Perm (sortByTsDesc items) items := by
  simpa [sortByTsDesc] using sortAux_perm items []

theorem insertByTsDesc_pairwise {x : Item} {l : List Item}
    (h : l.Pairwise fun a b => b.ts ≤ a.ts) :
    (insertByTsDesc x l).Pairwise fun a b => b.ts ≤ a.ts := by
  induction l with
  | nil => simp [insertByTsDesc]
  | cons y ys ih =>
    rw [List.pairwise_cons] at h
    obtain ⟨hy, hys⟩ := h
    rw [insertByTsDesc]
    by_cases hlt : y.ts < x.ts
    · rw [if_pos hlt, List.pairwise_cons]
      refine ⟨?_, List.pairwise_cons.mpr ⟨hy, hys⟩⟩
      intro z hz
      rcases List.mem_cons.mp hz with rfl | hz
      · exact le_of_lt hlt
      · exact (hy z hz).trans (le_of_lt hlt)
    · rw [if_neg hlt, List.pairwise_cons]
      refine ⟨?_, ih hys⟩
      intro z hz
      rcases List.mem_cons.mp ((insertByTsDesc_perm x ys).mem_iff.mp hz) with
        rfl | hz
      · exact not_lt.mp hlt
      · exact hy z hz

theorem sortByTsDesc_pairwise (items : List Item) :
    (sortByTsDesc items).Pairwise fun a b => b.ts ≤ a.ts := by
  rw [sortByTsDesc]
  generalize hacc : ([] : List Item) = acc
  have hacc2 : acc.Pairwise fun a b => b.ts ≤ a.ts := by
    rw [← hacc]; exact List.Pairwise.nil
  clear hacc
  induction items generalizing acc with
  | nil => simpa using hacc2
  | cons x xs ih =>
    simp only [List.foldl_cons]
    exact ih _ (insertByTsDesc_pairwise hacc2)

/-- The head of the sorted list is an element with the globally maximal
timestamp. -/
theorem sortByTsDesc_head_max {items rest : List Item} {newest : Item}
    (hs : sortByTsDesc items = newest :: rest) :
    newest ∈ items ∧ ∀ it ∈ items, it.ts ≤ newest.ts := by
  have hperm := sortByTsDesc_perm items
  rw [hs] at hperm
  refine ⟨hperm.mem_iff.mp (List.mem_cons_self _ _), ?_⟩
  intro it hit
  rcases List.mem_cons.mp (hperm.mem_iff.mpr hit) with rfl | hr
  · exact le_refl _
  · have hp := sortByTsDesc_pairwise items
    rw [hs, List.pairwise_cons] at hp
    exact hp.1 it hr

theorem sortByTsDesc_eq_nil {items : List Item} :
    sortByTsDesc items = [] ↔ items = [] := by
  constructor
  · intro h
    have hperm := sortByTsDesc_perm items
    rw [h] at hperm
    exact (hperm.symm).eq_nil
  · intro h; rw [h]; rfl

theorem maxByTs_mem (c : Item) (cs : List Item) : maxByTs c cs ∈ c :: cs := by
  induction cs generalizing c with
  | nil => simp [maxByTs]
  | cons d ds ih =>
    have hstep : maxByTs c (d :: ds) =
        maxByTs (if c.ts < d.ts then d else c) ds := rfl
    rw [hstep]
    by_cases h : c.ts < d.ts
    · rw [if_pos h]
      exact List.mem_cons_of_mem c (ih d)
    · rw [if_neg h]
      rcases List.mem_cons.mp (ih c) with heq | hmem₂
      · rw [heq]; exact List.mem_cons_self _ _
      · exact List.mem_cons_of_mem c (List.mem_cons_of_mem d hmem₂)

/-- On the subsequent-run path, the picked item is one of the gathered items
and its timestamp is strictly above the watermark. -/
theorem subseqPick_spec {items rest cs : List Item} {newest c : Item} {w : ℚ}
    (hs : sortByTsDesc items = newest :: rest)
    (hf : (newest :: rest).filter (fun it => w < it.ts) = c :: cs) :
    maxByTs c cs ∈ items ∧ w < (maxByTs c cs).ts := by
  have hmem : maxByTs c cs ∈ (newest :: rest).filter (fun it => w < it.ts) := by
    rw [hf]; exact maxByTs_mem c cs
  rw [List.mem_filter] at hmem
  obtain ⟨hmem₁, hp⟩ := hmem
  have hperm := sortByTsDesc_perm items
  rw [hs] at hperm
  exact ⟨hperm.mem_iff.mp hmem₁, by simpa using hp⟩

/-! ### Branch characterizations of `runItems` -/

theorem runItems_of_sort_nil {items : List Item} {wm : Option ℚ}
    {policy ok : Bool} (h : sortByTsDesc items = []) :
    runItems items wm policy ok = ⟨false, .NoAction, none, none, .noItems⟩ := by
  simp [runItems, h]

theorem runItems_seed {items rest : List Item} {newest : Item} {ok : Bool}
    (hs : sortByTsDesc items = newest :: rest) :
    runItems items none false ok =
      ⟨false, .SeedOnly newest.ts, none, some newest.ts, .seeded⟩ := by
  simp [runItems, hs]

theorem runItems_firstrun_post {items rest : List Item} {newest : Item}
    {ok : Bool} (hs : sortByTsDesc items = newest :: rest) :
    runItems items none true ok =
      if ok then
        ⟨false, .PostItem newest, some newest, some newest.ts, .sentFirstRun⟩
      else
        ⟨false, .PostItem newest, some newest, none, .errorFirstRun⟩ := by
  cases ok <;> simp [runItems, hs]

theorem runItems_subseq_noaction {items rest : List Item} {newest : Item}
    {w : ℚ} {policy ok : Bool}
    (hs : sortByTsDesc items = newest :: rest)
    (hf : (newest :: rest).filter (fun it => w < it.ts) = []) :
    runItems items (some w) policy ok =
      ⟨false, .NoAction, none, none, .nothingToDo⟩ := by
  simp [runItems, hs, hf]

theorem runItems_subseq_post {items rest cs : List Item} {newest c : Item}
    {w : ℚ} {policy ok : Bool}
    (hs : sortByTsDesc items = newest :: rest)
    (hf : (newest :: rest).filter (fun it => w < it.ts) = c :: cs) :
    runItems items (some w) policy ok =
      if ok then
        ⟨false, .PostItem (maxByTs c cs), some (maxByTs c cs),
          some (maxByTs c cs).ts, .sent⟩
      else
        ⟨false, .PostItem (maxByTs c cs), some (maxByTs c cs), none, .error⟩ := by
  cases ok <;> simp [runItems, hs, hf]

/-- Whenever `runItems` calls `post_to_discord` with `pick`, the whole run
outcome is determined by `deliveryOk` and whether the run was a first run,
`pick` is one of the gathered items, and on a subsequent run its timestamp
is strictly above the watermark. -/
theorem runItems_attempted_char {items : List Item} {wm : Option ℚ}
    {policy ok : Bool} {pick : Item}
    (h : (runItems items wm policy ok).attempted = some pick) :
    runItems items wm policy ok =
      ⟨false, .PostItem pick, some pick,
        if ok then some pick.ts else none,
        if wm.isSome then (if ok then .sent else .error)
        else (if ok then .sentFirstRun else .errorFirstRun)⟩ ∧
    pick ∈ items ∧ (∀ w : ℚ, wm = some w → w < pick.ts) := by
  rcases hs : sortByTsDesc items with _ | ⟨newest, rest⟩
  · rw [runItems_of_sort_nil hs] at h; simp at h
  · cases wm with
    | none =>
      cases policy with
      | false => rw [runItems_seed hs] at h; simp at h
      | true =>
        obtain ⟨hnm, hmax⟩ := sortByTsDesc_head_max hs
        rw [runItems_firstrun_post hs] at h ⊢
        cases ok with
        | true =>
          simp at h
          subst h
          exact ⟨by simp, hnm, fun w hw => by simp at hw⟩
        | false =>
          simp at h
          subst h
          exact ⟨by simp, hnm, fun w hw => by simp at hw⟩
    | some w =>
      rcases hf : (newest :: rest).filter (fun it => w < it.ts) with _ | ⟨c, cs⟩
      · rw [runItems_subseq_noaction hs hf] at h; simp at h
      · obtain ⟨hmem, hgt⟩ := subseqPick_spec hs hf
        rw [runItems_subseq_post hs hf] at h ⊢
        cases ok with
        | true =>
          simp at h
          subst h
          exact ⟨by simp, hmem, fun w₁ hw => by
            simp only [Option.some.injEq] at hw; exact hw ▸ hgt⟩
        | false =>
          simp at h
          subst h
          exact ⟨by simp, hmem, fun w₁ hw => by
            simp only [Option.some.injEq] at hw; exact hw ▸ hgt⟩

/-! ### Facts about `truncate` -/

theorem truncate_of_le {s : Str} {L : Int} (h : (s.length : Int) ≤ L) :
    truncate s L = s := by
  rw [truncate, if_pos h]

theorem truncate_of_long {s : Str} {L : Int} (hL : 0 < L)
    (h : L < (s.length : Int)) :
    truncate s L = s.take (L - 1).toNat ++ "…".toList := by
  rw [truncate, if_neg (not_le.mpr h), if_pos (by omega)]

theorem truncate_length_of_long {s : Str} {L : Int} (hL : 0 < L)
    (h : L < (s.length : Int)) :
    ((truncate s L).length : Int) = L := by
  rw [truncate_of_long hL h, show ("…".toList : Str) = ['…'] from rfl,
    List.length_append, List.length_take, List.length_singleton]
  omega

theorem truncate_length_le {s : Str} {L : Int} (hL : 0 < L) :
    ((truncate s L).length : Int) ≤ L := by
  rcases le_or_lt (s.length : Int) L with h | h
  · rw [truncate_of_le h]; exact h
  · exact le_of_eq (truncate_length_of_long hL h)

theorem truncate_eq_self_iff {s : Str} {L : Int} (hL : 0 < L) :
    truncate s L = s ↔ (s.length : Int) ≤ L := by
  constructor
  · intro h
    by_contra hlen
    push_neg at hlen
    have hlong := truncate_length_of_long hL hlen
    rw [h] at hlong
    omega
  · exact truncate_of_le

theorem truncate_getLast_of_long {s : Str} {L : Int} (hL : 0 < L)
    (h : L < (s.length : Int)) :
    (truncate s L).getLast? = some '…' := by
  rw [truncate_of_long hL h]
  rw [show ("…".toList : Str) = ['…'] from rfl]
  exact List.getLast?_concat _

/-! ### Facts about `tsLoop` -/

theorem tsLoop_cons_some {v : Option TimeStruct}
    {rest : List (Option TimeStruct)} {t : ℚ} (h : tsVal v = some t) :
    tsLoop (v :: rest) = t := by
  cases v with
  | none => simp [tsVal] at h
  | some s =>
    have hs : s.mktime? = some t := h
    simp [tsLoop, hs]

theorem tsLoop_cons_none {v : Option TimeStruct}
    {rest : List (Option TimeStruct)} (h : tsVal v = none) :
    tsLoop (v :: rest) = tsLoop rest := by
  cases v with
  | none => simp [tsLoop]
  | some s =>
    have hs : s.mktime? = none := h
    simp [tsLoop, hs]

/-! ## The claims -/

/-- C1 (counterexample): the claim says a durable record that exists but is
missing the `last_ts` field — or holds one of the wrong type — loads as
Absent. In the code, `data.get("last_ts", 0.0)` defaults a missing field to
`0.0`, so the empty JSON object loads as the watermark `0.0`, not Absent;
and a wrong-typed value that `float` accepts, such as `true`, loads as its
converted number. -/
theorem C1_counterexample :
    load_watermark (.parsed (.obj [])) ≠ none ∧
    load_watermark (.parsed (.obj [])) = some 0 ∧
    load_watermark (.parsed (.obj [("last_ts".toList, .bool true)])) = some 1 :=
  ⟨by decide, rfl, rfl⟩

/-- C1 (amended): `load_watermark` never raises, and returns Absent when no
durable record exists, when the record is an unparseable container, and when
the parsed container is not an object (no `.get`, so the lookup raises and
is caught); when the `last_ts` value is present its `float` conversion
decides the result, a failure again yielding Absent. However, a record that
is an object without the `last_ts` field yields the watermark `0.0`, not
Absent, and a wrong-typed value that `float` converts yields its converted
value. The Absent outcomes then follow the first-run path of `run`. -/
theorem C1_load_watermark_cases :
    load_watermark .missing = none ∧
    load_watermark .unparseable = none ∧
    load_watermark (.parsed .null) = none ∧
    (∀ b, load_watermark (.parsed (.bool b)) = none) ∧
    (∀ q, load_watermark (.parsed (.num q)) = none) ∧
    (∀ s, load_watermark (.parsed (.str s)) = none) ∧
    (∀ l, load_watermark (.parsed (.arr l)) = none) ∧
    (∀ fields, fields.find? (fun kv => kv.1 = "last_ts".toList) = none →
      load_watermark (.parsed (.obj fields)) = some 0) ∧
    (∀ fields kv, fields.find? (fun kv => kv.1 = "last_ts".toList) = some kv →
      load_watermark (.parsed (.obj fields)) = pyFloat kv.2) := by
  refine ⟨rfl, rfl, rfl, fun b => rfl, fun q => rfl, fun s => rfl, fun l => rfl,
    ?_, ?_⟩
  · intro fields hf
    have hred : load_watermark (.parsed (.obj fields)) =
        match fields.find? (fun kv => kv.1 = "last_ts".toList) with
        | none => some 0
        | some kv => pyFloat kv.2 := rfl
    rw [hred, hf]
  · intro fields kv hf
    have hred : load_watermark (.parsed (.obj fields)) =
        match fields.find? (fun kv => kv.1 = "last_ts".toList) with
        | none => some 0
        | some kv => pyFloat kv.2 := rfl
    rw [hred, hf]

/-- C1 (witness): the amended cases evaluated on the empty object (missing
field, watermark `0.0`) and on a `null`-valued field (conversion failure,
Absent). -/
theorem C1_witness :
    ([] : List (Str × Json)).find? (fun kv => kv.1 = "last_ts".toList)
        = none ∧
    load_watermark (.parsed (.obj [])) = some 0 ∧
    [("last_ts".toList, Json.null)].find? (fun kv => kv.1 = "last_ts".toList)
        = some ("last_ts".toList, Json.null) ∧
    load_watermark (.parsed (.obj [("last_ts".toList, Json.null)]))
        = pyFloat Json.null := by
  refine ⟨rfl, ?_, rfl, ?_⟩
  · exact C1_load_watermark_cases.2.2.2.2.2.2.2.1 [] rfl
  · exact C1_load_watermark_cases.2.2.2.2.2.2.2.2
      [("last_ts".toList, Json.null)] ("last_ts".toList, Json.null) rfl

/-- C7: `ts_of` tries `published_parsed`, then `updated_parsed`, then
`created_parsed`; a candidate contributes no value when it is absent or
`time.mktime` raises on it (`tsVal = none`), in which case the next one is
tried; the first contributed epoch value wins, and if none is contributed
the timestamp is `0`. `ts_of` is total, so normalization never raises. -/
theorem C7_ts_of_resolution (e : RawEntry) :
    (∀ t : ℚ, tsVal e.published_parsed = some t → ts_of e = t) ∧
    (tsVal e.published_parsed = none →
      ∀ t : ℚ, tsVal e.updated_parsed = some t → ts_of e = t) ∧
    (tsVal e.published_parsed = none → tsVal e.updated_parsed = none →
      ∀ t : ℚ, tsVal e.created_parsed = some t → ts_of e = t) ∧
    (tsVal e.published_parsed = none → tsVal e.updated_parsed = none →
      tsVal e.created_parsed = none → ts_of e = 0) := by
  refine ⟨?_, ?_, ?_, ?_⟩
  · intro t h
    exact tsLoop_cons_some h
  · intro hp t h
    unfold ts_of
    rw [tsLoop_cons_none hp]
    exact tsLoop_cons_some h
  · intro hp hu t h
    unfold ts_of
    rw [tsLoop_cons_none hp, tsLoop_cons_none hu]
    exact tsLoop_cons_some h
  · intro hp hu hc
    unfold ts_of
    rw [tsLoop_cons_none hp, tsLoop_cons_none hu, tsLoop_cons_none hc]
    rfl

/-- C7 (witness): an entry whose `published_parsed` is present but fails
`mktime`, and whose `updated_parsed` converts to `7`: the failure is
swallowed and `ts_of` resolves to `7`. -/
theorem C7_witness :
    tsVal (RawEntry.mk none none none none none none (some ⟨none⟩)
        (some ⟨some 7⟩) none none none).published_parsed = none ∧
    tsVal (RawEntry.mk none none none none none none (some ⟨none⟩)
        (some ⟨some 7⟩) none none none).updated_parsed = some 7 ∧
    ts_of (RawEntry.mk none none none none none none (some ⟨none⟩)
        (some ⟨some 7⟩) none none none) = 7 := by
  refine ⟨rfl, rfl, ?_⟩
  exact (C7_ts_of_resolution (RawEntry.mk none none none none none none
    (some ⟨none⟩) (some ⟨some 7⟩) none none none)).2.1 rfl 7 rfl

/-- C9: for a positive limit `L`, `truncate s L` has length at most `L`, it
equals `s` exactly when `len(s) ≤ L`, and on a longer `s` it is the first
`L - 1` characters of `s` followed by the ellipsis character. -/
theorem C9_truncate_contract (s : Str) (L : Int) (hL : 0 < L) :
    ((truncate s L).length : Int) ≤ L ∧
    (truncate s L = s ↔ (s.length : Int) ≤ L) ∧
    (L < (s.length : Int) →
      truncate s L = s.take (L - 1).toNat ++ "…".toList) :=
  ⟨truncate_length_le hL, truncate_eq_self_iff hL, truncate_of_long hL⟩

/-- C9 (witness): the contract evaluated at `s = "abcde"`, `L = 3`:
the output is `"ab…"`. -/
theorem C9_witness :
    (0 : Int) < 3 ∧
    (((truncate "abcde".toList 3).length : Int) ≤ 3 ∧
      (truncate "abcde".toList 3 = "abcde".toList ↔
        ((("abcde".toList : Str)).length : Int) ≤ 3) ∧
      ((3 : Int) < (("abcde".toList : Str).length : Int) →
        truncate "abcde".toList 3 =
          ("abcde".toList : Str).take ((3 : Int) - 1).toNat ++ "…".toList)) :=
  ⟨by decide, C9_truncate_contract "abcde".toList 3 (by decide)⟩

/-- C8: when the title is longer than 1800 characters (in particular at
length 5000), the rendered title segment is at most 1800 characters and
ends in the ellipsis marker, while the message keeps its structure: bolded
title line, the link on its own line, and a description line exactly when
the description is non-empty, itself capped at 1800 characters. -/
theorem C8_compose_truncates_title (title link desc : Str)
    (h : 1800 < (title.length : Int)) :
    ∃ t : Str, ((t.length : Int) ≤ 1800) ∧ t.getLast? = some '…' ∧
      compose title link desc =
        "**".toList ++ t ++ "**".toList ++ "\n".toList ++ link ++
          (if desc = [] then [] else "\n".toList ++ truncate desc 1800) ∧
      ((truncate desc 1800).length : Int) ≤ 1800 := by
  refine ⟨truncate title 1800, truncate_length_le (by norm_num),
    truncate_getLast_of_long (by norm_num) h, ?_,
    truncate_length_le (by norm_num)⟩
  rw [compose]
  by_cases hd : desc = []
  · simp [hd, List.append_assoc]
  · simp [hd, List.append_assoc]

/-- C8 (witness): a title of 5000 characters composed with a link and a
non-empty description. -/
theorem C8_witness :
    1800 < ((List.replicate 5000 'a').length : Int) ∧
    (∃ t : Str, ((t.length : Int) ≤ 1800) ∧ t.getLast? = some '…' ∧
      compose (List.replicate 5000 'a') "http://x".toList "d".toList =
        "**".toList ++ t ++ "**".toList ++ "\n".toList ++ "http://x".toList ++
          (if ("d".toList : Str) = [] then []
           else "\n".toList ++ truncate "d".toList 1800) ∧
      ((truncate "d".toList 1800).length : Int) ≤ 1800) :=
  ⟨by rw [List.length_replicate]; norm_num,
    C8_compose_truncates_title (List.replicate 5000 'a')
      "http://x".toList "d".toList (by rw [List.length_replicate]; norm_num)⟩

/-- C2: in every run that reaches a `PostItem` decision — `post_to_discord`
is called with `pick`, on the first-run-with-policy path or the subsequent
path — the watermark is saved if and only if the delivery call succeeds; on
a delivery failure the run logs the error line, `save_watermark` is not
called so the durable watermark keeps its previous value, and the process
does not terminate with an error. -/
theorem C2_watermark_save_iff_delivery
    (feeds : List (Str × List RawEntry)) (wm : Option ℚ)
    (policy deliveryOk : Bool) (pick : Item)
    (h : (run feeds wm policy deliveryOk).attempted = some pick) :
    ((run feeds wm policy deliveryOk).saved = some pick.ts ↔
      deliveryOk = true) ∧
    (deliveryOk = false →
      (run feeds wm policy deliveryOk).saved = none ∧
      ((run feeds wm policy deliveryOk).log = .errorFirstRun ∨
        (run feeds wm policy deliveryOk).log = .error) ∧
      (run feeds wm policy deliveryOk).fatal = false) := by
  by_cases hfe : feeds.isEmpty
  · simp [run, hfe] at h
  · simp only [run, if_neg hfe] at h ⊢
    obtain ⟨hchar, -, -⟩ := runItems_attempted_char h
    rw [hchar]
    cases deliveryOk with
    | true => cases wm <;> simp
    | false => cases wm <;> simp

/-- C2 (witness): a subsequent run over the sample feed whose delivery
fails: the post was attempted, nothing is saved, the error is logged, and
the run is not fatal. -/
theorem C2_witness :
    (run sampleFeeds (some 50) true false).attempted = some sampleItem100 ∧
    (((run sampleFeeds (some 50) true false).saved = some sampleItem100.ts ↔
        false = true) ∧
      (false = false →
        (run sampleFeeds (some 50) true false).saved = none ∧
        ((run sampleFeeds (some 50) true false).log = .errorFirstRun ∨
          (run sampleFeeds (some 50) true false).log = .error) ∧
        (run sampleFeeds (some 50) true false).fatal = false)) :=
  ⟨by decide,
    C2_watermark_save_iff_delivery sampleFeeds (some 50) true false
      sampleItem100 (by decide)⟩

/-- C3: on a subsequent run (watermark `w` present) in which an item `pick`
is successfully posted, the saved watermark equals `pick`'s timestamp and is
strictly greater than `w` — strictness is forced by the strict `>` filter.
-/
theorem C3_posted_watermark_monotone
    (feeds : List (Str × List RawEntry)) (w : ℚ) (policy : Bool) (pick : Item)
    (h : (run feeds (some w) policy true).attempted = some pick) :
    (run feeds (some w) policy true).saved = some pick.ts ∧ w < pick.ts := by
  by_cases hfe : feeds.isEmpty
  · simp [run, hfe] at h
  · simp only [run, if_neg hfe] at h ⊢
    obtain ⟨hchar, -, hgt⟩ := runItems_attempted_char h
    rw [hchar]
    exact ⟨by simp, hgt w rfl⟩

/-- C3 (witness): posting the epoch-100 item over watermark 50 saves 100,
strictly above 50. -/
theorem C3_witness :
    (run sampleFeeds (some 50) true true).attempted = some sampleItem100 ∧
    ((run sampleFeeds (some 50) true true).saved = some sampleItem100.ts ∧
      (50 : ℚ) < sampleItem100.ts) :=
  ⟨by decide,
    C3_posted_watermark_monotone sampleFeeds 50 true sampleItem100 (by decide)⟩

/-- C4: on a subsequent run with watermark `w`, if every gathered item's
timestamp is at most `w`, the decision is `NoAction`: `post_to_discord` is
never called and `save_watermark` is never called. -/
theorem C4_no_repost (feeds : List (Str × List RawEntry)) (w : ℚ)
    (policy ok : Bool) (hall : ∀ it ∈ gather feeds, it.ts ≤ w) :
    (run feeds (some w) policy ok).decision = .NoAction ∧
    (run feeds (some w) policy ok).attempted = none ∧
    (run feeds (some w) policy ok).saved = none := by
  by_cases hfe : feeds.isEmpty
  · simp [run, hfe]
  · simp only [run, if_neg hfe]
    rcases hs : sortByTsDesc (gather feeds) with _ | ⟨newest, rest⟩
    · rw [runItems_of_sort_nil hs]
      exact ⟨rfl, rfl, rfl⟩
    · have hperm := sortByTsDesc_perm (gather feeds)
      rw [hs] at hperm
      have hf : (newest :: rest).filter (fun it => w < it.ts) = [] := by
        rw [List.filter_eq_nil_iff]
        intro a ha
        simp only [decide_eq_true_eq]
        exact not_lt.mpr (hall a (hperm.mem_iff.mp ha))
      rw [runItems_subseq_noaction hs hf]
      exact ⟨rfl, rfl, rfl⟩

/-- C4 (witness): all sample timestamps are at most 200, and the run over
watermark 200 does nothing. -/
theorem C4_witness :
    (∀ it ∈ gather sampleFeeds2, it.ts ≤ (200 : ℚ)) ∧
    ((run sampleFeeds2 (some 200) true true).decision = .NoAction ∧
      (run sampleFeeds2 (some 200) true true).attempted = none ∧
      (run sampleFeeds2 (some 200) true true).saved = none) :=
  ⟨by decide, C4_no_repost sampleFeeds2 200 true true (by decide)⟩

/-- C5: with the watermark Absent, an empty merged item set yields
`NoAction`; a non-empty merged item set yields a selected candidate that is
one of the gathered items and carries the global maximum timestamp across
all feeds combined — whatever the per-feed ordering, since the statement
quantifies over every feed list. -/
theorem C5_merge_global_max (feeds : List (Str × List RawEntry))
    (policy ok : Bool) :
    (gather feeds = [] → (run feeds none policy ok).decision = .NoAction) ∧
    (gather feeds ≠ [] → ∃ pick : Item, pick ∈ gather feeds ∧
      (∀ it ∈ gather feeds, it.ts ≤ pick.ts) ∧
      (run feeds none policy ok).decision =
        (if policy then .PostItem pick else .SeedOnly pick.ts)) := by
  constructor
  · intro hnil
    by_cases hfe : feeds.isEmpty
    · simp [run, hfe]
    · simp only [run, if_neg hfe]
      rw [runItems_of_sort_nil (sortByTsDesc_eq_nil.mpr hnil)]
  · intro hne
    have hfe : ¬(feeds.isEmpty = true) := by
      cases feeds with
      | nil => exact fun _ => hne rfl
      | cons f fs => simp
    simp only [run, if_neg hfe]
    rcases hs : sortByTsDesc (gather feeds) with _ | ⟨newest, rest⟩
    · exact absurd (sortByTsDesc_eq_nil.mp hs) hne
    · obtain ⟨hmem, hmax⟩ := sortByTsDesc_head_max hs
      refine ⟨newest, hmem, hmax, ?_⟩
      cases policy with
      | true => rw [runItems_firstrun_post hs]; cases ok <;> simp
      | false => rw [runItems_seed hs]; simp

/-- C5 (witness): a feed with no entries yields `NoAction`; over the two
sample feeds the selected candidate dominates both timestamps. -/
theorem C5_witness :
    (gather [("f".toList, ([] : List RawEntry))] = [] ∧
      (run [("f".toList, ([] : List RawEntry))] none true true).decision =
        .NoAction) ∧
    (gather sampleFeeds2 ≠ [] ∧ ∃ pick : Item, pick ∈ gather sampleFeeds2 ∧
      (∀ it ∈ gather sampleFeeds2, it.ts ≤ pick.ts) ∧
      (run sampleFeeds2 none true true).decision =
        (if true then .PostItem pick else .SeedOnly pick.ts)) :=
  ⟨⟨rfl, (C5_merge_global_max [("f".toList, [])] true true).1 rfl⟩,
    ⟨by decide, (C5_merge_global_max sampleFeeds2 true true).2 (by decide)⟩⟩

/-- C6: with the watermark Absent and a non-empty merged item set, the
newest item (global maximum timestamp) drives both first-run paths: with
the policy enabled the decision is `PostItem(newest)` and delivery is
attempted with it; with the policy disabled the decision is
`SeedOnly(newest.ts)`, the watermark is written with the newest timestamp,
and no delivery call occurs. -/
theorem C6_first_run_policy (feeds : List (Str × List RawEntry)) (ok : Bool)
    (hne : gather feeds ≠ []) :
    ∃ newest : Item, newest ∈ gather feeds ∧
      (∀ it ∈ gather feeds, it.ts ≤ newest.ts) ∧
      (run feeds none true ok).decision = .PostItem newest ∧
      (run feeds none true ok).attempted = some newest ∧
      (run feeds none false ok).decision = .SeedOnly newest.ts ∧
      (run feeds none false ok).saved = some newest.ts ∧
      (run feeds none false ok).attempted = none := by
  have hfe : ¬(feeds.isEmpty = true) := by
    cases feeds with
    | nil => exact fun _ => hne rfl
    | cons f fs => simp
  rcases hs : sortByTsDesc (gather feeds) with _ | ⟨newest, rest⟩
  · exact absurd (sortByTsDesc_eq_nil.mp hs) hne
  · obtain ⟨hmem, hmax⟩ := sortByTsDesc_head_max hs
    refine ⟨newest, hmem, hmax, ?_, ?_, ?_, ?_, ?_⟩ <;>
      simp only [run, if_neg hfe]
    · rw [runItems_firstrun_post hs]; cases ok <;> simp
    · rw [runItems_firstrun_post hs]; cases ok <;> simp
    · rw [runItems_seed hs]
    · rw [runItems_seed hs]
    · rw [runItems_seed hs]

/-- C6 (witness): over the two sample feeds the epoch-200 item is the
newest; enabled policy posts it, disabled policy seeds 200 silently. -/
theorem C6_witness :
    gather sampleFeeds2 ≠ [] ∧
    (∃ newest : Item, newest ∈ gather sampleFeeds2 ∧
      (∀ it ∈ gather sampleFeeds2, it.ts ≤ newest.ts) ∧
      (run sampleFeeds2 none true true).decision = .PostItem newest ∧
      (run sampleFeeds2 none true true).attempted = some newest ∧
      (run sampleFeeds2 none false true).decision = .SeedOnly newest.ts ∧
      (run sampleFeeds2 none false true).saved = some newest.ts ∧
      (run sampleFeeds2 none false true).attempted = none) :=
  ⟨by decide, C6_first_run_policy sampleFeeds2 true (by decide)⟩

/-- C10: once a watermark `w ≥ 0` is stored — including the `0.0` seeded by
a first run whose entries all lack a parseable date — no item whose
timestamp is the `0` sentinel is ever posted on a subsequent run: the strict
filter `ts > w` excludes it. -/
theorem C10_zero_sentinel_never_posted (feeds : List (Str × List RawEntry))
    (w : ℚ) (policy ok : Bool) (pick : Item) (hw : 0 ≤ w)
    (h : (run feeds (some w) policy ok).attempted = some pick) :
    pick.ts ≠ 0 := by
  by_cases hfe : feeds.isEmpty
  · simp [run, hfe] at h
  · simp only [run, if_neg hfe] at h
    obtain ⟨-, -, hgt⟩ := runItems_attempted_char h
    have hlt := hgt w rfl
    intro h0
    rw [h0] at hlt
    exact absurd hlt (not_lt.mpr hw)

/-- C10 (witness): with watermark 50 the posted sample item's timestamp is
non-zero. -/
theorem C10_witness :
    (0 : ℚ) ≤ 50 ∧
    (run sampleFeeds (some 50) true true).attempted = some sampleItem100 ∧
    sampleItem100.ts ≠ 0 :=
  ⟨by decide, by decide,
    C10_zero_sentinel_never_posted sampleFeeds 50 true true sampleItem100
      (by decide) (by decide)⟩

end RssToDiscord
